import Mathlib

/-!
# RAID0 over two devices (raid0.c): striping loops, flush and sizing

A shallow embedding of `xmp_read`, `xmp_write`, `xmp_flush`, `parse_opt` and of the
size computation of `main` from `src/raid0.c`, followed by theorems about them.

Conventions of the embedding:

* `len` and `block_size` are `u_int32_t`, `offset` is `u_int64_t`; they are natural
  numbers here.  The only operation of the two loops that can leave its machine
  range is `offset += block_size`, which is taken modulo `2^64`:
  `len -= block_size` is guarded by `len >= block_size`, and the file offset computed
  from `offset` is at most `offset` (`posOf_le`).
* `read_offset` and `write_offset` are `off_t`, a signed 64-bit integer.  A call records
  the 64-bit value assigned to it in `Seg.pofs`; the signed number that value stands for,
  which is what `pread`/`pwrite` receive, is `Seg.fileOffset` (`off_t`).  The two differ
  from `2^63` on, where the file offset is negative.  The device maps are indexed by the
  64-bit value; at a negative file offset a real kernel transfers nothing.
* The two backing devices are byte maps `Devs`, indexed by the index into
  `dev_fd` and by the file offset; the caller's buffer is a byte map `Mem`
  indexed from the pointer `buf` passed in.
* The number of bytes a `pread`/`pwrite` really transfers is decided by the
  kernel, not by the program: it is a parameter `xfer` of the model (a failed call
  transfers nothing).  `fullXfer` is the kernel that always transfers everything.
* An integer division by `block_size = 0` is undefined behaviour in C and the source
  does not guard it.  The model records that the division is reached
  (`Fault.divByZero` for `offset / block_size` in the loops, `MainOut.divByZero` for
  `raid_device_size / block_size` in `main`) and says nothing of what the machine does
  then: a trap on some, a result and the rest of the program on others.
* The C library is not part of the source: `strtoul` is a parameter of `parse_opt`, and
  `argp_parse_from` is the order in which `argp_parse` calls `parse_opt`.
* Loops are run with fuel `len`; with a block size above zero they return
  (`xmp_read_eq`, `xmp_write_eq`), and `Fault.outOfFuel` never comes out
  (`xmp_read_fuel`, `xmp_write_fuel`).
* Output under `verbose` is not part of the model.
-/

namespace Raid0

/-- A byte. -/
abbrev Byte := Fin 256

/-- The caller's buffer, indexed from the pointer handed to the operation. -/
abbrev Mem := Nat → Byte

/-- Contents of the backing devices: index into dev_fd, then file offset. -/
abbrev Devs := Nat → Nat → Byte

/-- Modulus of `u_int64_t`. -/
def U64 : Nat := 2 ^ 64

/-- Ways in which a run of the embedded loops ends without a result: the division by
`block_size = 0` is reached (undefined behaviour), or the fuel is used up. -/
inductive Fault where
  | divByZero
  | outOfFuel
  deriving DecidableEq, Repr

/-- One positioned I/O issued by a loop iteration: `lofs` is the value of the loop
variable `offset` when the call is made, `dev` the index into `dev_fd`, `buf` the
position of the pointer `buf` relative to its initial value, `count` the number of
bytes requested and `pofs` the 64-bit value of the file offset assigned to
`read_offset`/`write_offset` (see `Seg.fileOffset` for the `off_t` it stands for). -/
structure Seg where
  lofs : Nat
  dev : Nat
  buf : Nat
  count : Nat
  pofs : Nat
  deriving DecidableEq, Repr

/-- The kernel that transfers every byte that was asked for. -/
def fullXfer : Seg → Nat := fun c => c.count

/-- Number of bytes the call `c` really moves: what the kernel grants, never more
than `count`. -/
def moved (xfer : Seg → Nat) (c : Seg) : Nat := min (xfer c) c.count

/-- Effect of `pread(dev_fd[c.dev], buf + c.buf, c.count, c.pofs)` on the buffer. -/
def pread (xfer : Seg → Nat) (devs : Devs) (mem : Mem) (c : Seg) : Mem :=
  fun i => if c.buf ≤ i ∧ i < c.buf + moved xfer c then devs c.dev (c.pofs + (i - c.buf)) else mem i

/-- Effect of `pwrite(dev_fd[c.dev], buf + c.buf, c.count, c.pofs)` on the devices. -/
def pwrite (xfer : Seg → Nat) (mem : Mem) (devs : Devs) (c : Seg) : Devs :=
  fun d p =>
    if d = c.dev ∧ c.pofs ≤ p ∧ p < c.pofs + moved xfer c then mem (c.buf + (p - c.pofs)) else devs d p

/-- The `while (len > 0)` loop of `xmp_read`; returns the buffer and the calls made. -/
def xmp_read_loop (xfer : Seg → Nat) (block_size : Nat) (devs : Devs) :
    Nat → Mem → Nat → Nat → Nat → Except Fault (Mem × List Seg)
  | 0, mem, _, len, _ => if len > 0 then .error .outOfFuel else .ok (mem, [])
  | fuel + 1, mem, buf, len, offset =>
    if len > 0 then
      if block_size = 0 then .error .divByZero
      else
        let read_device := (offset / block_size) % 2
        let read_offset := ((offset / block_size) / 2) * block_size + (offset % block_size)
        if len < block_size then
          let c : Seg := ⟨offset, read_device, buf, len, read_offset⟩
          .ok (pread xfer devs mem c, [c])
        else
          let c : Seg := ⟨offset, read_device, buf, block_size, read_offset⟩
          match xmp_read_loop xfer block_size devs fuel (pread xfer devs mem c)
              (buf + block_size) (len - block_size) ((offset + block_size) % U64) with
          | .ok (m, tr) => .ok (m, c :: tr)
          | .error e => .error e
    else .ok (mem, [])

/-- The `while (len > 0)` loop of `xmp_write`; returns the devices and the calls made. -/
def xmp_write_loop (xfer : Seg → Nat) (block_size : Nat) (mem : Mem) :
    Nat → Devs → Nat → Nat → Nat → Except Fault (Devs × List Seg)
  | 0, devs, _, len, _ => if len > 0 then .error .outOfFuel else .ok (devs, [])
  | fuel + 1, devs, buf, len, offset =>
    if len > 0 then
      if block_size = 0 then .error .divByZero
      else
        let write_device := (offset / block_size) % 2
        let write_offset := ((offset / block_size) / 2) * block_size + (offset % block_size)
        if len < block_size then
          let c : Seg := ⟨offset, write_device, buf, len, write_offset⟩
          .ok (pwrite xfer mem devs c, [c])
        else
          let c : Seg := ⟨offset, write_device, buf, block_size, write_offset⟩
          match xmp_write_loop xfer block_size mem fuel (pwrite xfer mem devs c)
              (buf + block_size) (len - block_size) ((offset + block_size) % U64) with
          | .ok (d, tr) => .ok (d, c :: tr)
          | .error e => .error e
    else .ok (devs, [])

/-- What `xmp_read` leaves behind: its return value, the buffer and the calls made. -/
structure ReadOut where
  status : Int
  mem : Mem
  calls : List Seg

/-- What `xmp_write` leaves behind: its return value, the devices and the calls made. -/
structure WriteOut where
  status : Int
  devs : Devs
  calls : List Seg

/-- The operation `xmp_read(buf, len, offset, userdata)`: the loop, then `return 0`.  The results of
`pread` are discarded by the source. -/
def xmp_read (xfer : Seg → Nat) (block_size : Nat) (devs : Devs) (mem : Mem)
    (len offset : Nat) : Except Fault ReadOut :=
  match xmp_read_loop xfer block_size devs len mem 0 len offset with
  | .ok (m, tr) => .ok ⟨0, m, tr⟩
  | .error e => .error e

/-- The operation `xmp_write(buf, len, offset, userdata)`: the loop, then `return 0`.  The results of
`pwrite` are discarded by the source. -/
def xmp_write (xfer : Seg → Nat) (block_size : Nat) (devs : Devs) (mem : Mem)
    (len offset : Nat) : Except Fault WriteOut :=
  match xmp_write_loop xfer block_size mem len devs 0 len offset with
  | .ok (d, tr) => .ok ⟨0, d, tr⟩
  | .error e => .error e

/-- The calls issued by `xmp_read`, when it returns. -/
def readCalls (block_size len offset : Nat) : Option (List Seg) :=
  match xmp_read fullXfer block_size (fun _ _ => 0) (fun _ => 0) len offset with
  | .ok r => some r.calls
  | .error _ => none

/-- The calls issued by `xmp_write`, when it returns. -/
def writeCalls (block_size len offset : Nat) : Option (List Seg) :=
  match xmp_write fullXfer block_size (fun _ _ => 0) (fun _ => 0) len offset with
  | .ok r => some r.calls
  | .error _ => none

/-- Device index chosen by the loops for the logical offset `o`:
`(offset / block_size) % 2`. -/
def devOf (block_size o : Nat) : Nat := (o / block_size) % 2

/-- File offset chosen by the loops for the logical offset `o`:
`((offset / block_size) / 2) * block_size + (offset % block_size)`. -/
def posOf (block_size o : Nat) : Nat := ((o / block_size) / 2) * block_size + (o % block_size)

/-- The signed 64-bit integer (`off_t`) that the 64-bit value `v` stands for. -/
def off_t (v : Nat) : Int :=
  if v % U64 < 2 ^ 63 then ((v % U64 : Nat) : Int) else ((v % U64 : Nat) : Int) - ((U64 : Nat) : Int)

/-- The file offset passed to `pread`/`pwrite` by the call `c`: `read_offset` or
`write_offset`, an `off_t`. -/
def Seg.fileOffset (c : Seg) : Int := off_t c.pofs

/-- Modulus of `u_int32_t`. -/
def U32 : Nat := 2 ^ 32

/-- Where byte `i` of the buffer of a request starting at `offset` is transferred by
the loops: the iteration `i / block_size` runs with the loop variable `offset` advanced
`i / block_size` times by `block_size` (in `u_int64_t`), and byte `i` is
`i % block_size` bytes into its transfer. -/
def slot (block_size offset i : Nat) : Nat × Nat :=
  (devOf block_size ((offset + (i / block_size) * block_size) % U64),
   posOf block_size ((offset + (i / block_size) * block_size) % U64) + i % block_size)

/-- The requests covered by the theorems on data: those that end inside the 64-bit offset
space, and all those whose `offset` and `len` are values of their C types. -/
def Fits (offset len : Nat) : Prop :=
  offset + len < U64 ∨ (offset < U64 ∧ len < U32)

/-- The calls of the loop shared by `xmp_read_loop` and `xmp_write_loop` (shown equal to
the trace of each below). -/
def segs (block_size : Nat) : Nat → Nat → Nat → Nat → List Seg
  | 0, _, _, _ => []
  | fuel + 1, buf, len, offset =>
    if len = 0 then []
    else if len < block_size then
      [⟨offset, devOf block_size offset, buf, len, posOf block_size offset⟩]
    else
      ⟨offset, devOf block_size offset, buf, block_size, posOf block_size offset⟩ ::
        segs block_size fuel (buf + block_size) (len - block_size) ((offset + block_size) % U64)

/-- Segments starting at logical offset `o` and buffer position `b` follow one another
without gap or overlap, each of them non-empty. -/
def Contig : Nat → Nat → List Seg → Prop
  | _, _, [] => True
  | o, b, s :: rest =>
    s.lofs = o ∧ s.buf = b ∧ 0 < s.count ∧ Contig (o + s.count) (b + s.count) rest

/-- A segment of the specification (section 3): device index, physical offset, chunk
length. -/
structure Segment where
  device_index : Nat
  device_offset : Nat
  chunk_length : Nat
  deriving DecidableEq, Repr

/-- The algorithm `translate` of section 4.1 of the specification, steps 1 to 5, applied
until `length = 0` (at most `fuel` times). -/
def spec_translate (block_size : Nat) : Nat → Nat → Nat → List Segment
  | 0, _, _ => []
  | fuel + 1, offset, length =>
    if length = 0 then []
    else
      let block_index := offset / block_size
      let device_index := block_index % 2
      let device_offset := (block_index / 2) * block_size + (offset % block_size)
      let chunk_length := min length (block_size - (offset % block_size))
      ⟨device_index, device_offset, chunk_length⟩ ::
        spec_translate block_size fuel (offset + chunk_length) (length - chunk_length)

/-- The (device, physical offset, chunk length) of a call. -/
def Seg.toSegment (c : Seg) : Segment := ⟨c.dev, c.pofs, c.count⟩

/-- The operation `xmp_flush`: for `i = 0, 1`, `fsync(dev_fd[i])` unless `dev_fd[i]` is `-1`; then
`return 0`.  Returns the status and the descriptors synced, in order. -/
def xmp_flush (dev_fd : Nat → Int) : Int × List Int :=
  ((0 : Int),
   (List.range 2).foldl (fun synced i => if dev_fd i ≠ -1 then synced ++ [dev_fd i] else synced) [])

/-- How `main` ends. -/
inductive MainOut where
  | exit1
  | divByZero
  | serve (size : Nat)
  deriving DecidableEq, Repr

/-- One round of the `for` loop of `main`: `fd i` is what `open` returned for device `i`,
`size i` what `lseek(.., SEEK_END)` returned, as `uint64_t`; a failed `open` exits. -/
def main_step (fd : Nat → Int) (size : Nat → Nat) (raid_device_size i : Nat) : Option Nat :=
  if fd i < 0 then none
  else if raid_device_size = 0 ∨ size i < raid_device_size then some (size i)
  else some raid_device_size

/-- The part of `main` after argument parsing: open both devices, take the size, truncate
it to the block size and hand it to `buse_main` as `bop.size`.  The source divides by
`block_size` unguarded: with `block_size = 0` the run reaches a division by zero, which
is all `MainOut.divByZero` says.  The product is at most `raid_device_size`, so it stays in
`uint64_t`. -/
def main (block_size : Nat) (fd : Nat → Int) (size : Nat → Nat) : MainOut :=
  match (main_step fd size 0 0).bind (fun r => main_step fd size r 1) with
  | none => .exit1
  | some raid_device_size =>
    if block_size = 0 then .divByZero
    else .serve (raid_device_size / block_size * block_size)

/-- The value of `raid_device_size` after the `for` loop of `main`, before it is truncated
to the block size: both rounds of `main_step`, when both devices could be opened. -/
def opened_size (fd : Nat → Int) (size : Nat → Nat) : Option Nat :=
  (main_step fd size 0 0).bind (fun r => main_step fd size r 1)

/-- The fields of `struct arguments`; a `char *` that was never assigned is `none`
(`main` zero-initialises the structure). -/
structure Arguments where
  block_size : Nat
  device : Nat → Option String
  raid_device : Option String
  verbose : Int

/-- The structure as `main` declares it: `.verbose = 0`, every other field zero. -/
def Arguments.init : Arguments := ⟨0, fun _ => none, none, 0⟩

/-- The keys `parse_opt` tells apart: the option `v`, `ARGP_KEY_ARG`, `ARGP_KEY_END`, and
every other key. -/
inductive Key where
  | optV
  | ARGP_KEY_ARG
  | ARGP_KEY_END
  | other
  deriving DecidableEq, Repr

/-- How a call of `parse_opt` ends: `return 0` with the structure as it is then,
`return ARGP_ERR_UNKNOWN`, the exit in `errx(EXIT_FAILURE, "SIZE must be an integer")`,
or `warnx("not enough arguments")` followed by `argp_usage`, which exits. -/
inductive Parsed where
  | ok (a : Arguments)
  | errUnknown
  | exitNotInteger
  | exitNotEnough

/-- The function `parse_opt(key, arg, state)`, with `state->arg_num` and `state->input`
as arguments.  The C library function `strtoul(arg, &endptr, 10)` is a parameter: it gives
the number read and the text left at `endptr`; the number is stored in a `uint32_t`. -/
def parse_opt (strtoul : String → Nat × String) (key : Key) (arg : String) (arg_num : Nat)
    (arguments : Arguments) : Parsed :=
  match key with
  | .optV => .ok { arguments with verbose := 1 }
  | .ARGP_KEY_ARG =>
    match arg_num with
    | 0 =>
      if (strtoul arg).2 ≠ "" then .exitNotInteger
      else .ok { arguments with block_size := (strtoul arg).1 % U32 }
    | 1 => .ok { arguments with raid_device := some arg }
    | 2 => .ok { arguments with device := fun i => if i = 0 then some arg else arguments.device i }
    | 3 => .ok { arguments with device := fun i => if i = 1 then some arg else arguments.device i }
    | _ => .errUnknown
  | .ARGP_KEY_END =>
    if arg_num < 3 then .exitNotEnough
    else .ok arguments
  | .other => .errUnknown

/-- The calls `argp_parse` of the C library makes to `parse_opt` for the positional
arguments `args` (those after the program name, options apart): `ARGP_KEY_ARG` for each
in turn, `arg_num` counting those before it, then `ARGP_KEY_END` with `arg_num` their
number.  An `ARGP_ERR_UNKNOWN` for an argument makes `argp_parse` stop with an error. -/
def argp_parse_from (strtoul : String → Nat × String) :
    List String → Nat → Arguments → Parsed
  | [], arg_num, arguments => parse_opt strtoul .ARGP_KEY_END "" arg_num arguments
  | arg :: rest, arg_num, arguments =>
    match parse_opt strtoul .ARGP_KEY_ARG arg arg_num arguments with
    | .ok a => argp_parse_from strtoul rest (arg_num + 1) a
    | r => r

/-- The call `argp_parse(&argp, argc, argv, 0, 0, &arguments)` of `main` for the
positional arguments `args`. -/
def argp_parse (strtoul : String → Nat × String) (args : List String) : Parsed :=
  argp_parse_from strtoul args 0 Arguments.init

/-! ## The loops and their trace -/

theorem xmp_read_loop_eq (xfer : Seg → Nat) (bs : Nat) (devs : Devs) (hbs : 0 < bs) :
    ∀ (fuel : Nat) (mem : Mem) (buf len offset : Nat), len ≤ fuel →
      xmp_read_loop xfer bs devs fuel mem buf len offset =
        .ok ((segs bs fuel buf len offset).foldl (pread xfer devs) mem,
             segs bs fuel buf len offset) := by
  intro fuel
  induction fuel with
  | zero =>
    intro mem buf len offset h
    have : len = 0 := by omega
    subst this
    simp [xmp_read_loop, segs]
  | succ n ih =>
    intro mem buf len offset h
    by_cases h0 : len = 0
    · subst h0
      simp [xmp_read_loop, segs]
    · have hpos : len > 0 := by omega
      have hb : bs ≠ 0 := by omega
      by_cases hlt : len < bs
      · simp [xmp_read_loop, segs, h0, hpos, hb, hlt, devOf, posOf]
      · have hle : len - bs ≤ n := by omega
        simp [xmp_read_loop, segs, h0, hpos, hb, hlt, devOf, posOf, ih _ _ _ _ hle]

theorem xmp_write_loop_eq (xfer : Seg → Nat) (bs : Nat) (mem : Mem) (hbs : 0 < bs) :
    ∀ (fuel : Nat) (devs : Devs) (buf len offset : Nat), len ≤ fuel →
      xmp_write_loop xfer bs mem fuel devs buf len offset =
        .ok ((segs bs fuel buf len offset).foldl (pwrite xfer mem) devs,
             segs bs fuel buf len offset) := by
  intro fuel
  induction fuel with
  | zero =>
    intro devs buf len offset h
    have : len = 0 := by omega
    subst this
    simp [xmp_write_loop, segs]
  | succ n ih =>
    intro devs buf len offset h
    by_cases h0 : len = 0
    · subst h0
      simp [xmp_write_loop, segs]
    · have hpos : len > 0 := by omega
      have hb : bs ≠ 0 := by omega
      by_cases hlt : len < bs
      · simp [xmp_write_loop, segs, h0, hpos, hb, hlt, devOf, posOf]
      · have hle : len - bs ≤ n := by omega
        simp [xmp_write_loop, segs, h0, hpos, hb, hlt, devOf, posOf, ih _ _ _ _ hle]

theorem xmp_read_eq (xfer : Seg → Nat) (bs : Nat) (devs : Devs) (mem : Mem) (len offset : Nat)
    (hbs : 0 < bs) :
    xmp_read xfer bs devs mem len offset =
      .ok ⟨0, (segs bs len 0 len offset).foldl (pread xfer devs) mem, segs bs len 0 len offset⟩ := by
  simp [xmp_read, xmp_read_loop_eq xfer bs devs hbs len mem 0 len offset (le_refl _)]

theorem xmp_write_eq (xfer : Seg → Nat) (bs : Nat) (devs : Devs) (mem : Mem) (len offset : Nat)
    (hbs : 0 < bs) :
    xmp_write xfer bs devs mem len offset =
      .ok ⟨0, (segs bs len 0 len offset).foldl (pwrite xfer mem) devs, segs bs len 0 len offset⟩ := by
  simp [xmp_write, xmp_write_loop_eq xfer bs mem hbs len devs 0 len offset (le_refl _)]

theorem xmp_read_fuel (xfer : Seg → Nat) (bs : Nat) (devs : Devs) (mem : Mem)
    (len offset : Nat) : xmp_read xfer bs devs mem len offset ≠ .error .outOfFuel := by
  rcases Nat.eq_zero_or_pos bs with hbs | hbs
  · subst hbs
    cases len <;> simp [xmp_read, xmp_read_loop]
  · simp [xmp_read_eq xfer bs devs mem len offset hbs]

theorem xmp_write_fuel (xfer : Seg → Nat) (bs : Nat) (devs : Devs) (mem : Mem)
    (len offset : Nat) : xmp_write xfer bs devs mem len offset ≠ .error .outOfFuel := by
  rcases Nat.eq_zero_or_pos bs with hbs | hbs
  · subst hbs
    cases len <;> simp [xmp_write, xmp_write_loop]
  · simp [xmp_write_eq xfer bs devs mem len offset hbs]

/-! ## Shape of the trace -/

theorem segs_len_zero (bs fuel buf offset : Nat) : segs bs fuel buf 0 offset = [] := by
  cases fuel <;> simp [segs]

theorem segs_short (bs fuel buf len offset : Nat) (h0 : 0 < len) (hlt : len < bs) :
    segs bs (fuel + 1) buf len offset =
      [⟨offset, devOf bs offset, buf, len, posOf bs offset⟩] := by
  have : len ≠ 0 := by omega
  simp [segs, this, hlt]

theorem segs_full (bs fuel buf len offset : Nat) (h0 : 0 < len) (hge : bs ≤ len) :
    segs bs (fuel + 1) buf len offset =
      ⟨offset, devOf bs offset, buf, bs, posOf bs offset⟩ ::
        segs bs fuel (buf + bs) (len - bs) ((offset + bs) % U64) := by
  have h1 : len ≠ 0 := by omega
  have h2 : ¬ len < bs := by omega
  simp [segs, h1, h2]

/-- Induction along the iterations of the loop: a property of the trace that holds for
the empty trace, for a lone final short transfer, and is kept by a full-block iteration,
holds for every trace. -/
theorem segs_induction (bs : Nat) (hbs : 0 < bs) (motive : Nat → Nat → Nat → List Seg → Prop)
    (hnil : ∀ buf offset, motive buf 0 offset [])
    (hshort : ∀ buf len offset, 0 < len → len < bs →
      motive buf len offset [⟨offset, devOf bs offset, buf, len, posOf bs offset⟩])
    (hfull : ∀ buf len offset rest, bs ≤ len →
      motive (buf + bs) (len - bs) ((offset + bs) % U64) rest →
      motive buf len offset (⟨offset, devOf bs offset, buf, bs, posOf bs offset⟩ :: rest)) :
    ∀ (fuel buf len offset : Nat), len ≤ fuel →
      motive buf len offset (segs bs fuel buf len offset) := by
  intro fuel
  induction fuel with
  | zero =>
    intro buf len offset h
    have : len = 0 := by omega
    subst this
    rw [segs_len_zero]
    exact hnil buf offset
  | succ n ih =>
    intro buf len offset h
    by_cases h0 : len = 0
    · subst h0
      rw [segs_len_zero]
      exact hnil buf offset
    · by_cases hlt : len < bs
      · rw [segs_short bs n buf len offset (by omega) hlt]
        exact hshort buf len offset (by omega) hlt
      · rw [segs_full bs n buf len offset (by omega) (by omega)]
        exact hfull buf len offset _ (by omega) (ih _ _ _ (by omega))

theorem segs_placed (bs : Nat) (hbs : 0 < bs) (fuel buf len offset : Nat) (h : len ≤ fuel) :
    ∀ s ∈ segs bs fuel buf len offset, s.dev = devOf bs s.lofs ∧ s.pofs = posOf bs s.lofs := by
  refine segs_induction bs hbs
    (fun _ _ _ l => ∀ s ∈ l, s.dev = devOf bs s.lofs ∧ s.pofs = posOf bs s.lofs)
    ?_ ?_ ?_ fuel buf len offset h
  · intro _ _ s hs
    simp at hs
  · intro _ _ _ _ _ s hs
    simp at hs
    subst hs
    exact ⟨rfl, rfl⟩
  · intro _ _ _ rest _ ih s hs
    rcases List.mem_cons.mp hs with h1 | h1
    · subst h1
      exact ⟨rfl, rfl⟩
    · exact ih s h1

theorem segs_count (bs : Nat) (hbs : 0 < bs) (fuel buf len offset : Nat) (h : len ≤ fuel) :
    ∀ s ∈ segs bs fuel buf len offset, 0 < s.count ∧ s.count ≤ bs := by
  refine segs_induction bs hbs (fun _ _ _ l => ∀ s ∈ l, 0 < s.count ∧ s.count ≤ bs)
    ?_ ?_ ?_ fuel buf len offset h
  · intro _ _ s hs
    simp at hs
  · intro _ len _ h0 hlt s hs
    simp at hs
    subst hs
    exact ⟨h0, Nat.le_of_lt hlt⟩
  · intro _ _ _ rest _ ih s hs
    rcases List.mem_cons.mp hs with h1 | h1
    · subst h1
      exact ⟨hbs, le_refl _⟩
    · exact ih s h1

theorem segs_sum (bs : Nat) (hbs : 0 < bs) (fuel buf len offset : Nat) (h : len ≤ fuel) :
    ((segs bs fuel buf len offset).map Seg.count).sum = len := by
  refine segs_induction bs hbs (fun _ len _ l => (l.map Seg.count).sum = len)
    ?_ ?_ ?_ fuel buf len offset h
  · intro _ _
    simp
  · intro _ _ _ _ _
    simp
  · intro _ len _ rest hge ih
    simp only [List.map_cons, List.sum_cons, ih]
    omega

theorem segs_contig (bs : Nat) (hbs : 0 < bs) (fuel buf len offset : Nat) (h : len ≤ fuel)
    (hfit : offset + len < U64) : Contig offset buf (segs bs fuel buf len offset) := by
  refine segs_induction bs hbs (fun buf len offset l => offset + len < U64 → Contig offset buf l)
    ?_ ?_ ?_ fuel buf len offset h hfit
  · intro _ _ _
    trivial
  · intro _ _ _ h0 _ _
    exact ⟨rfl, rfl, h0, trivial⟩
  · intro buf len offset rest hge ih hf
    have hmod : (offset + bs) % U64 = offset + bs := Nat.mod_eq_of_lt (by omega)
    rw [hmod] at ih
    exact ⟨rfl, rfl, hbs, ih (by omega)⟩

/-! ## Arithmetic of the placement -/

theorem moved_full (c : Seg) : moved fullXfer c = c.count := by
  simp [moved, fullXfer]

theorem Fits.offset_lt {offset len : Nat} (h : Fits offset len) : offset < U64 := by
  rcases h with h | h
  · omega
  · exact h.1

theorem Fits.step {offset len bs : Nat} (h : Fits offset len) (hge : bs ≤ len) :
    Fits ((offset + bs) % U64) (len - bs) := by
  rcases h with h | h
  · left
    rw [Nat.mod_eq_of_lt (by omega)]
    omega
  · right
    exact ⟨Nat.mod_lt _ (by unfold U64; omega), by omega⟩

theorem slot_first (bs offset i : Nat) (hi : i < bs) (ho : offset < U64) :
    slot bs offset i = (devOf bs offset, posOf bs offset + i) := by
  simp [slot, Nat.div_eq_of_lt hi, Nat.mod_eq_of_lt hi, Nat.mod_eq_of_lt ho]

theorem slot_shift (bs offset i : Nat) (hbs : 0 < bs) :
    slot bs ((offset + bs) % U64) i = slot bs offset (i + bs) := by
  have h1 : (i + bs) / bs = i / bs + 1 := Nat.add_div_right i hbs
  have h2 : (i + bs) % bs = i % bs := Nat.add_mod_right i bs
  have h3 : ((offset + bs) % U64 + i / bs * bs) % U64 = (offset + (i / bs + 1) * bs) % U64 := by
    rw [Nat.mod_add_mod]
    congr 1
    ring
  simp [slot, h1, h2, h3]

theorem div_add_blocks (bs offset k : Nat) (hbs : 0 < bs) :
    (offset + k * bs) / bs = offset / bs + k := by
  rw [Nat.add_mul_div_right _ _ hbs]

theorem mod_add_blocks (bs offset k : Nat) : (offset + k * bs) % bs = offset % bs := by
  rw [Nat.add_mul_mod_self_right]

theorem slot_eq (bs offset i : Nat) (hbs : 0 < bs) (hfit : offset + i < U64) :
    slot bs offset i =
      ((offset / bs + i / bs) % 2,
       ((offset / bs + i / bs) / 2) * bs + offset % bs + i % bs) := by
  have hle : i / bs * bs ≤ i := Nat.div_mul_le_self i bs
  have hm : (offset + i / bs * bs) % U64 = offset + i / bs * bs := Nat.mod_eq_of_lt (by omega)
  simp [slot, hm, devOf, posOf, div_add_blocks bs offset _ hbs, mod_add_blocks]

theorem posOf_le (bs x : Nat) : posOf bs x ≤ x := by
  have h1 : x / bs / 2 * bs ≤ x / bs * bs := Nat.mul_le_mul_right bs (Nat.div_le_self _ 2)
  have h2 : x / bs * bs + x % bs = x := Nat.div_add_mod' x bs
  simp only [posOf]
  omega

theorem le_posOf (bs x : Nat) : x ≤ 2 * posOf bs x + bs := by
  have h1 : x / bs * bs ≤ (2 * (x / bs / 2) + 1) * bs := Nat.mul_le_mul_right bs (by omega)
  have h2 : (2 * (x / bs / 2) + 1) * bs = 2 * (x / bs / 2 * bs) + bs := by ring
  have h3 : x / bs * bs + x % bs = x := Nat.div_add_mod' x bs
  simp only [posOf]
  omega

/-- Two transfers whose loop offsets are a whole number `d` of blocks apart and which put
a byte on the same device at the same file offset are one and the same. -/
theorem placed_apart (bs o d s t : Nat) (hbs : 0 < bs) (hs : s < bs)
    (hd : devOf bs o = devOf bs (o + d * bs))
    (hp : posOf bs o + s = posOf bs (o + d * bs) + t) : d = 0 ∧ s = t := by
  simp only [devOf, posOf, div_add_blocks bs o d hbs, mod_add_blocks] at hd hp
  rcases Nat.eq_zero_or_pos d with h0 | h0
  · subst h0
    simp only [Nat.add_zero] at hp
    exact ⟨rfl, by omega⟩
  · exfalso
    have h1 : (o / bs / 2 + 1) * bs ≤ (o / bs + d) / 2 * bs :=
      Nat.mul_le_mul_right bs (by omega)
    have h2 : (o / bs / 2 + 1) * bs = o / bs / 2 * bs + bs := by ring
    omega

theorem slot_inj_le (bs offset len i j : Nat) (hbs : 0 < bs) (hfit : Fits offset len)
    (hi : i < len) (hj : j < len) (hle : i / bs ≤ j / bs)
    (h : slot bs offset i = slot bs offset j) : i = j := by
  obtain ⟨d, hd⟩ := Nat.exists_eq_add_of_le hle
  have eA : offset + j / bs * bs = offset + i / bs * bs + d * bs := by
    rw [hd]
    ring
  have hki : i / bs * bs ≤ i := Nat.div_mul_le_self i bs
  have hkj : j / bs * bs ≤ j := Nat.div_mul_le_self j bs
  have hti : i % bs < bs := Nat.mod_lt _ hbs
  have htj : j % bs < bs := Nat.mod_lt _ hbs
  have ho := hfit.offset_lt
  have hdv := (Prod.mk.inj h).1
  have hps := (Prod.mk.inj h).2
  simp only [] at hdv hps
  -- the conclusion once the two transfers are known to be the same one
  have fin : d = 0 ∧ i % bs = j % bs → i = j := by
    rintro ⟨h0, hm⟩
    have hk : j / bs = i / bs := by omega
    rw [← Nat.div_add_mod i bs, ← Nat.div_add_mod j bs, hk, hm]
  by_cases hAj : offset + j / bs * bs < U64
  · -- neither loop offset has wrapped
    have hAi : offset + i / bs * bs < U64 := by omega
    rw [Nat.mod_eq_of_lt hAj, Nat.mod_eq_of_lt hAi, eA] at hdv hps
    exact fin (placed_apart bs _ d _ _ hbs hti hdv hps)
  · have hrng : offset < U64 ∧ len < U32 := by
      rcases hfit with hf | hf
      · omega
      · exact hf
    have hU : U64 = 2 ^ 64 := rfl
    have hV : U32 = 2 ^ 32 := rfl
    have wj : (offset + j / bs * bs) % U64 = offset + j / bs * bs - U64 := by
      rw [Nat.mod_eq_sub_mod (by omega), Nat.mod_eq_of_lt (by omega)]
    by_cases hAi : offset + i / bs * bs < U64
    · -- only the later one has wrapped: the file offsets are far apart
      exfalso
      rw [Nat.mod_eq_of_lt hAi, wj] at hps
      have hd1 : 0 < d := by
        rcases Nat.eq_zero_or_pos d with h0 | h0
        · subst h0
          omega
        · exact h0
      have hdb : bs ≤ d * bs := Nat.le_mul_of_pos_left bs hd1
      have b1 := posOf_le bs (offset + j / bs * bs - U64)
      have b2 := le_posOf bs (offset + i / bs * bs)
      omega
    · -- both have wrapped
      have wi : (offset + i / bs * bs) % U64 = offset + i / bs * bs - U64 := by
        rw [Nat.mod_eq_sub_mod (by omega), Nat.mod_eq_of_lt (by omega)]
      have e2 : offset + j / bs * bs - U64 = offset + i / bs * bs - U64 + d * bs := by omega
      rw [wj, wi, e2] at hdv hps
      exact fin (placed_apart bs _ d _ _ hbs hti hdv hps)

/-- Two bytes of one request never share a (device, file offset). -/
theorem slot_inj (bs offset len i j : Nat) (hbs : 0 < bs) (hfit : Fits offset len)
    (hi : i < len) (hj : j < len) (h : slot bs offset i = slot bs offset j) : i = j := by
  rcases Nat.le_total (i / bs) (j / bs) with hle | hle
  · exact slot_inj_le bs offset len i j hbs hfit hi hj hle h
  · exact (slot_inj_le bs offset len j i hbs hfit hj hi hle h.symm).symm

/-! ## Effect of the loops when every transfer is complete -/

theorem read_effect (bs : Nat) (hbs : 0 < bs) (devs : Devs) (fuel buf len offset : Nat)
    (h : len ≤ fuel) (hfit : Fits offset len) (mem : Mem) :
    (∀ i, i < len →
      (segs bs fuel buf len offset).foldl (pread fullXfer devs) mem (buf + i) =
        devs (slot bs offset i).1 (slot bs offset i).2) ∧
    (∀ j, (j < buf ∨ buf + len ≤ j) →
      (segs bs fuel buf len offset).foldl (pread fullXfer devs) mem j = mem j) := by
  refine segs_induction bs hbs
    (fun buf len offset l => Fits offset len → ∀ mem : Mem,
      (∀ i, i < len → l.foldl (pread fullXfer devs) mem (buf + i) =
        devs (slot bs offset i).1 (slot bs offset i).2) ∧
      (∀ j, (j < buf ∨ buf + len ≤ j) → l.foldl (pread fullXfer devs) mem j = mem j))
    ?_ ?_ ?_ fuel buf len offset h hfit mem
  · intro buf offset _ mem
    exact ⟨fun i hi => absurd hi (Nat.not_lt_zero i), fun j _ => rfl⟩
  · intro buf len offset h0 hlt hf mem
    constructor
    · intro i hi
      rw [slot_first bs offset i (by omega) hf.offset_lt]
      simp [pread, moved_full, hi]
    · intro j hj
      have : ¬ (buf ≤ j ∧ j < buf + len) := by omega
      simp [pread, moved_full, this]
  · intro buf len offset rest hge ih hf mem
    have ih2 := ih (hf.step hge)
      (pread fullXfer devs mem ⟨offset, devOf bs offset, buf, bs, posOf bs offset⟩)
    simp only [List.foldl_cons]
    constructor
    · intro i hi
      by_cases hib : i < bs
      · rw [ih2.2 (buf + i) (Or.inl (by omega)), slot_first bs offset i hib hf.offset_lt]
        simp [pread, moved_full, hib]
      · have e : buf + i = buf + bs + (i - bs) := by omega
        rw [e, ih2.1 (i - bs) (by omega), slot_shift bs offset (i - bs) hbs]
        have e2 : i - bs + bs = i := by omega
        rw [e2]
    · intro j hj
      rw [ih2.2 j (by omega)]
      have : ¬ (buf ≤ j ∧ j < buf + bs) := by omega
      simp [pread, moved_full, this]

theorem write_effect (bs : Nat) (hbs : 0 < bs) (mem : Mem) (fuel buf len offset : Nat)
    (h : len ≤ fuel) (hfit : Fits offset len) (devs : Devs) :
    (∀ i, i < len →
      (segs bs fuel buf len offset).foldl (pwrite fullXfer mem) devs
          (slot bs offset i).1 (slot bs offset i).2 = mem (buf + i)) ∧
    (∀ d p, (∀ i, i < len → slot bs offset i ≠ (d, p)) →
      (segs bs fuel buf len offset).foldl (pwrite fullXfer mem) devs d p = devs d p) := by
  refine segs_induction bs hbs
    (fun buf len offset l => Fits offset len → ∀ devs : Devs,
      (∀ i, i < len → l.foldl (pwrite fullXfer mem) devs
          (slot bs offset i).1 (slot bs offset i).2 = mem (buf + i)) ∧
      (∀ d p, (∀ i, i < len → slot bs offset i ≠ (d, p)) →
        l.foldl (pwrite fullXfer mem) devs d p = devs d p))
    ?_ ?_ ?_ fuel buf len offset h hfit devs
  · intro buf offset _ devs
    exact ⟨fun i hi => absurd hi (Nat.not_lt_zero i), fun d p _ => rfl⟩
  · intro buf len offset h0 hlt hf devs
    constructor
    · intro i hi
      rw [slot_first bs offset i (by omega) hf.offset_lt]
      simp [pwrite, moved_full, hi]
    · intro d p hout
      have : ¬ (d = devOf bs offset ∧ posOf bs offset ≤ p ∧ p < posOf bs offset + len) := by
        rintro ⟨h1, h2, h3⟩
        apply hout (p - posOf bs offset) (by omega)
        rw [slot_first bs offset _ (by omega) hf.offset_lt, h1]
        congr 1
        omega
      simp [pwrite, moved_full, this]
  · intro buf len offset rest hge ih hf devs
    have ih2 := ih (hf.step hge)
      (pwrite fullXfer mem devs ⟨offset, devOf bs offset, buf, bs, posOf bs offset⟩)
    simp only [List.foldl_cons]
    constructor
    · intro i hi
      by_cases hib : i < bs
      · rw [ih2.2 _ _ ?_, slot_first bs offset i hib hf.offset_lt]
        · simp [pwrite, moved_full, hib]
        · intro i2 hi2 heq
          rw [slot_shift bs offset i2 hbs] at heq
          have := slot_inj bs offset len _ _ hbs hf (by omega) hi heq
          omega
      · have e2 : i - bs + bs = i := by omega
        have := ih2.1 (i - bs) (by omega)
        rw [slot_shift bs offset (i - bs) hbs, e2] at this
        rw [this]
        congr 1
        omega
    · intro d p hout
      rw [ih2.2 d p ?_]
      · have : ¬ (d = devOf bs offset ∧ posOf bs offset ≤ p ∧ p < posOf bs offset + bs) := by
          rintro ⟨h1, h2, h3⟩
          apply hout (p - posOf bs offset) (by omega)
          rw [slot_first bs offset _ (by omega) hf.offset_lt, h1]
          congr 1
          omega
        simp [pwrite, moved_full, this]
      · intro i2 hi2
        rw [slot_shift bs offset i2 hbs]
        exact hout (i2 + bs) (by omega)

/-! ## Further facts about the trace and the size -/

theorem segs_getElem (bs : Nat) (hbs : 0 < bs) (fuel buf len offset : Nat) (h : len ≤ fuel)
    (hfit : offset + len < U64) (k : Nat) (hk : (k + 1) * bs ≤ len) :
    (segs bs fuel buf len offset)[k]? =
      some ⟨offset + k * bs, devOf bs (offset + k * bs), buf + k * bs, bs,
            posOf bs (offset + k * bs)⟩ := by
  refine segs_induction bs hbs
    (fun buf len offset l => offset + len < U64 → ∀ k, (k + 1) * bs ≤ len →
      l[k]? = some ⟨offset + k * bs, devOf bs (offset + k * bs), buf + k * bs, bs,
            posOf bs (offset + k * bs)⟩)
    ?_ ?_ ?_ fuel buf len offset h hfit k hk
  · intro _ _ _ k hk
    have : bs ≤ (k + 1) * bs := Nat.le_mul_of_pos_left bs (Nat.succ_pos k)
    omega
  · intro _ len _ _ hlt _ k hk
    have : bs ≤ (k + 1) * bs := Nat.le_mul_of_pos_left bs (Nat.succ_pos k)
    omega
  · intro buf len offset rest hge ih hf k hk
    have hmod : (offset + bs) % U64 = offset + bs := Nat.mod_eq_of_lt (by omega)
    rw [hmod] at ih
    cases k with
    | zero => simp
    | succ n =>
      have e : (n + 1 + 1) * bs = (n + 1) * bs + bs := by ring
      have ih2 := ih (by omega) n (by omega)
      have e1 : offset + bs + n * bs = offset + (n + 1) * bs := by ring
      have e2 : buf + bs + n * bs = buf + (n + 1) * bs := by ring
      rw [e1, e2] at ih2
      simpa using ih2

theorem main_size_of_pos (bs : Nat) (fd : Nat → Int) (size : Nat → Nat) (hbs : 0 < bs)
    (hfd0 : 0 ≤ fd 0) (hfd1 : 0 ≤ fd 1) (h0 : 0 < size 0) :
    main bs fd size = .serve (min (size 0) (size 1) / bs * bs) := by
  have hb : bs ≠ 0 := by omega
  have n0 : ¬ fd 0 < 0 := by omega
  have n1 : ¬ fd 1 < 0 := by omega
  have hs : size 0 ≠ 0 := by omega
  by_cases hlt : size 1 < size 0
  · have : min (size 0) (size 1) = size 1 := by omega
    simp [main, main_step, n0, n1, hb, hs, hlt, this]
  · have : min (size 0) (size 1) = size 0 := by omega
    simp [main, main_step, n0, n1, hb, hs, hlt, this]

theorem segs_fuel (bs : Nat) (hbs : 0 < bs) :
    ∀ (fuel fuel2 buf len offset : Nat), len ≤ fuel → len ≤ fuel2 →
      segs bs fuel buf len offset = segs bs fuel2 buf len offset := by
  intro fuel
  induction fuel with
  | zero =>
    intro fuel2 buf len offset h _
    have : len = 0 := by omega
    subst this
    rw [segs_len_zero, segs_len_zero]
  | succ n ih =>
    intro fuel2 buf len offset h h2
    by_cases h0 : len = 0
    · subst h0
      rw [segs_len_zero, segs_len_zero]
    · obtain ⟨m, hm⟩ : ∃ m, fuel2 = m + 1 := ⟨fuel2 - 1, by omega⟩
      subst hm
      by_cases hlt : len < bs
      · rw [segs_short bs n buf len offset (by omega) hlt,
          segs_short bs m buf len offset (by omega) hlt]
      · rw [segs_full bs n buf len offset (by omega) (by omega),
          segs_full bs m buf len offset (by omega) (by omega),
          ih m _ _ _ (by omega) (by omega)]

theorem segs_length (bs : Nat) (hbs : 0 < bs) (fuel buf len offset : Nat) (h : len ≤ fuel) :
    (segs bs fuel buf len offset).length ≤ len := by
  refine segs_induction bs hbs (fun _ len _ l => l.length ≤ len) ?_ ?_ ?_ fuel buf len offset h
  · intro _ _
    simp
  · intro _ len _ h0 _
    simpa using h0
  · intro _ len _ rest hge ih
    simp only [List.length_cons]
    omega

theorem segs_within (bs : Nat) (hbs : 0 < bs) (fuel buf len offset : Nat) (h : len ≤ fuel)
    (hfit : offset + len < U64) :
    ∀ s ∈ segs bs fuel buf len offset,
      offset ≤ s.lofs ∧ s.lofs + s.count ≤ offset + len ∧
      buf ≤ s.buf ∧ s.buf + s.count ≤ buf + len := by
  refine segs_induction bs hbs
    (fun buf len offset l => offset + len < U64 → ∀ s ∈ l,
      offset ≤ s.lofs ∧ s.lofs + s.count ≤ offset + len ∧
      buf ≤ s.buf ∧ s.buf + s.count ≤ buf + len)
    ?_ ?_ ?_ fuel buf len offset h hfit
  · intro _ _ _ s hs
    simp at hs
  · intro _ _ _ _ _ _ s hs
    simp at hs
    subst hs
    simp
  · intro buf len offset rest hge ih hf s hs
    have hmod : (offset + bs) % U64 = offset + bs := Nat.mod_eq_of_lt (by omega)
    rw [hmod] at ih
    rcases List.mem_cons.mp hs with h1 | h1
    · subst h1
      simp only
      omega
    · have := ih (by omega) s h1
      omega

theorem posOf_div (bs a : Nat) (hbs : 0 < bs) : posOf bs a / bs = a / bs / 2 := by
  simp only [posOf]
  rw [Nat.add_comm, Nat.add_mul_div_right _ _ hbs, Nat.div_eq_of_lt (Nat.mod_lt _ hbs),
    Nat.zero_add]

theorem posOf_mod (bs a : Nat) (hbs : 0 < bs) : posOf bs a % bs = a % bs := by
  simp only [posOf]
  rw [Nat.add_comm, Nat.add_mul_mod_self_right, Nat.mod_eq_of_lt (Nat.mod_lt _ hbs)]

/-- The logical offset is read back from the device index and the file offset. -/
theorem home_recover (bs a : Nat) (hbs : 0 < bs) :
    (2 * (posOf bs a / bs) + devOf bs a) * bs + posOf bs a % bs = a := by
  rw [posOf_div bs a hbs, posOf_mod bs a hbs]
  have h1 : 2 * (a / bs / 2) + devOf bs a = a / bs := by
    simp only [devOf]
    omega
  rw [h1]
  exact Nat.div_add_mod' a bs

theorem opened_size_of_fds (fd : Nat → Int) (size : Nat → Nat) (hfd0 : 0 ≤ fd 0)
    (hfd1 : 0 ≤ fd 1) :
    opened_size fd size =
      some (if size 0 = 0 ∨ size 1 < size 0 then size 1 else size 0) := by
  have n0 : ¬ fd 0 < 0 := by omega
  have n1 : ¬ fd 1 < 0 := by omega
  by_cases h : size 0 = 0 ∨ size 1 < size 0
  · simp [opened_size, main_step, n0, n1, h]
  · simp [opened_size, main_step, n0, n1, h]

theorem main_of_opened (bs : Nat) (fd : Nat → Int) (size : Nat → Nat) (raw : Nat)
    (hbs : 0 < bs) (h : opened_size fd size = some raw) :
    main bs fd size = .serve (raw / bs * bs) := by
  have hb : bs ≠ 0 := by omega
  simp only [opened_size] at h
  simp [main, h, hb]

/-! ## The claims -/

/-- C1 (round trip).  For a block size above zero, an `offset` that is a `u_int64_t`
and a `len` that is a `u_int32_t`, writing the byte pattern `P` of length `len` with
`xmp_write` and then reading the same range with `xmp_read`, every transfer being
complete, succeeds twice and leaves exactly `P` in the read buffer, whatever the devices
and the read buffer held before. -/
theorem write_then_read_roundtrip (bs len offset : Nat) (P : List Byte) (devs : Devs)
    (mem0 : Mem) (hbs : 0 < bs) (hP : P.length = len) (hoff : offset < U64)
    (hlen : len < U32) :
    ∃ w r, xmp_write fullXfer bs devs (fun i => P.getD i 0) len offset = .ok w ∧
      w.status = 0 ∧
      xmp_read fullXfer bs w.devs mem0 len offset = .ok r ∧ r.status = 0 ∧
      (List.range len).map r.mem = P := by
  refine ⟨_, _, xmp_write_eq fullXfer bs devs _ len offset hbs, rfl,
    xmp_read_eq fullXfer bs _ mem0 len offset hbs, rfl, ?_⟩
  apply List.ext_getElem
  · simp [hP]
  · intro i h1 h2
    have hi : i < len := by simpa using h1
    have hr := (read_effect bs hbs
      ((segs bs len 0 len offset).foldl (pwrite fullXfer (fun i => P.getD i 0)) devs)
      len 0 len offset (le_refl _) (Or.inr ⟨hoff, hlen⟩) mem0).1 i hi
    have hw := (write_effect bs hbs (fun i => P.getD i 0) len 0 len offset (le_refl _)
      (Or.inr ⟨hoff, hlen⟩) devs).1 i hi
    simp only [Nat.zero_add] at hr hw
    simp only [List.getElem_map, List.getElem_range]
    rw [hr, hw]
    simp [List.getD_eq_getElem?_getD, List.getElem?_eq_getElem h2]

theorem write_then_read_roundtrip_witness :
    ∃ w r, xmp_write fullXfer 4 (fun _ _ => 0) (fun i => [1, 2, 3, 4, 5, 6].getD i 0) 6 2 = .ok w ∧
      w.status = 0 ∧
      xmp_read fullXfer 4 w.devs (fun _ => 0) 6 2 = .ok r ∧ r.status = 0 ∧
      (List.range 6).map r.mem = [1, 2, 3, 4, 5, 6] :=
  write_then_read_roundtrip 4 6 2 [1, 2, 3, 4, 5, 6] (fun _ _ => 0) (fun _ => 0)
    (by decide) (by decide) (by decide) (by decide)

/-- C2 (the loops against `translate`), evaluated at the request of Example 2:
with `block_size = 512`, `length = 600`, `offset = 256`, both `xmp_read` and `xmp_write`
issue (device 0, physical offset 256, length 512) then (device 1, physical offset 256,
length 88), whereas `translate` gives (device 0, 256, 256) then (device 1, 0, 344).
Likewise with `block_size = 4096`, `length = 4096`, `offset = 512`: one call
(device 0, 512, 4096) against (device 0, 512, 3584) then (device 1, 0, 512). -/
theorem loops_differ_from_translate :
    (readCalls 512 600 256).map (List.map Seg.toSegment) = some [⟨0, 256, 512⟩, ⟨1, 256, 88⟩] ∧
    (writeCalls 512 600 256).map (List.map Seg.toSegment) = some [⟨0, 256, 512⟩, ⟨1, 256, 88⟩] ∧
    spec_translate 512 600 256 600 = [⟨0, 256, 256⟩, ⟨1, 0, 344⟩] ∧
    (readCalls 4096 4096 512).map (List.map Seg.toSegment) = some [⟨0, 512, 4096⟩] ∧
    (writeCalls 4096 4096 512).map (List.map Seg.toSegment) = some [⟨0, 512, 4096⟩] ∧
    spec_translate 4096 4096 512 4096 = [⟨0, 512, 3584⟩, ⟨1, 0, 512⟩] := by
  decide

/-- C3 (no transfer crosses a block boundary), evaluated at `block_size = 4096`,
`offset = 512`, `length = 4096`: `xmp_read` and `xmp_write` each issue a transfer that
starts `lofs % 4096` bytes into a block and is longer than what is left of that block. -/
theorem transfer_crosses_block_boundary :
    (∃ calls, readCalls 4096 4096 512 = some calls ∧
      ∃ s ∈ calls, 4096 < s.lofs % 4096 + s.count) ∧
    (∃ calls, writeCalls 4096 4096 512 = some calls ∧
      ∃ s ∈ calls, 4096 < s.lofs % 4096 + s.count) :=
  ⟨⟨[⟨512, 0, 0, 4096, 512⟩], by decide, ⟨512, 0, 0, 4096, 512⟩, by simp, by decide⟩,
   ⟨[⟨512, 0, 0, 4096, 512⟩], by decide, ⟨512, 0, 0, 4096, 512⟩, by simp, by decide⟩⟩

/-- C4 (coverage).  For a block size above zero and a request that ends inside the 64-bit
offset space, whatever the kernel transfers, `xmp_read` and `xmp_write` return and the
calls they made have counts that add up to `len`, each at most `block_size`, and they
follow one another without gap or overlap from `offset` in the volume and from position
0 in the buffer, every one of them non-empty. -/
theorem calls_cover_request (xfer : Seg → Nat) (bs len offset : Nat) (devs : Devs) (mem : Mem)
    (hbs : 0 < bs) (hfit : offset + len < U64) :
    (∃ r, xmp_read xfer bs devs mem len offset = .ok r ∧
      (r.calls.map Seg.count).sum = len ∧ (∀ s ∈ r.calls, s.count ≤ bs) ∧
      Contig offset 0 r.calls) ∧
    (∃ w, xmp_write xfer bs devs mem len offset = .ok w ∧
      (w.calls.map Seg.count).sum = len ∧ (∀ s ∈ w.calls, s.count ≤ bs) ∧
      Contig offset 0 w.calls) :=
  ⟨⟨_, xmp_read_eq xfer bs devs mem len offset hbs,
      segs_sum bs hbs len 0 len offset (le_refl _),
      fun s hs => (segs_count bs hbs len 0 len offset (le_refl _) s hs).2,
      segs_contig bs hbs len 0 len offset (le_refl _) hfit⟩,
   ⟨_, xmp_write_eq xfer bs devs mem len offset hbs,
      segs_sum bs hbs len 0 len offset (le_refl _),
      fun s hs => (segs_count bs hbs len 0 len offset (le_refl _) s hs).2,
      segs_contig bs hbs len 0 len offset (le_refl _) hfit⟩⟩

theorem calls_cover_request_witness :
    (∃ r, xmp_read fullXfer 512 (fun _ _ => 0) (fun _ => 0) 600 256 = .ok r ∧
      (r.calls.map Seg.count).sum = 600 ∧ (∀ s ∈ r.calls, s.count ≤ 512) ∧
      Contig 256 0 r.calls) ∧
    (∃ w, xmp_write fullXfer 512 (fun _ _ => 0) (fun _ => 0) 600 256 = .ok w ∧
      (w.calls.map Seg.count).sum = 600 ∧ (∀ s ∈ w.calls, s.count ≤ 512) ∧
      Contig 256 0 w.calls) :=
  calls_cover_request fullXfer 512 600 256 (fun _ _ => 0) (fun _ => 0) (by decide) (by decide)

/-- C5, as the code behaves at the top of the offset space: with
`block_size = 4294967295`, `len = 1`, `offset = 2^64 - 2`, `xmp_read` and `xmp_write`
make one call, to device 0, whose file offset is the negative `off_t`
-9223372034707292162, not `floor(b / 2) * block_size + (o mod block_size)`, which is
9223372039002259454. -/
theorem file_offset_negative_at_top :
    (readCalls 4294967295 1 18446744073709551614).map
        (List.map (fun s => (s.lofs, s.dev, s.count, s.fileOffset))) =
      some [(18446744073709551614, 0, 1, -9223372034707292162)] ∧
    (writeCalls 4294967295 1 18446744073709551614).map
        (List.map (fun s => (s.lofs, s.dev, s.count, s.fileOffset))) =
      some [(18446744073709551614, 0, 1, -9223372034707292162)] ∧
    ((18446744073709551614 / 4294967295) / 2) * 4294967295 +
        18446744073709551614 % 4294967295 = 9223372039002259454 ∧
    (-9223372034707292162 : Int) ≠ ((9223372039002259454 : Nat) : Int) := by
  decide

/-- C5 (amended).  For a block size above zero, whatever the kernel transfers,
`xmp_read` and `xmp_write` return, and every call they made, issued when the loop
variable `offset` was `o`, goes to device `(o / block_size) % 2`; its file offset is
`((o / block_size) / 2) * block_size + o % block_size` whenever that number is below
`2^63`, which it is whenever `o` is, and that number less `2^64` when it is not. -/
theorem calls_placed_off_t (xfer : Seg → Nat) (bs len offset : Nat) (devs : Devs) (mem : Mem)
    (hbs : 0 < bs) :
    (∃ r, xmp_read xfer bs devs mem len offset = .ok r ∧
      ∀ s ∈ r.calls, s.dev = (s.lofs / bs) % 2 ∧
        (((s.lofs / bs) / 2) * bs + s.lofs % bs < 2 ^ 63 →
          s.fileOffset = ((((s.lofs / bs) / 2) * bs + s.lofs % bs : Nat) : Int)) ∧
        (s.lofs < 2 ^ 63 →
          s.fileOffset = ((((s.lofs / bs) / 2) * bs + s.lofs % bs : Nat) : Int)) ∧
        (2 ^ 63 ≤ ((s.lofs / bs) / 2) * bs + s.lofs % bs → s.lofs < 2 ^ 64 →
          s.fileOffset = ((((s.lofs / bs) / 2) * bs + s.lofs % bs : Nat) : Int) - 2 ^ 64)) ∧
    (∃ w, xmp_write xfer bs devs mem len offset = .ok w ∧
      ∀ s ∈ w.calls, s.dev = (s.lofs / bs) % 2 ∧
        (((s.lofs / bs) / 2) * bs + s.lofs % bs < 2 ^ 63 →
          s.fileOffset = ((((s.lofs / bs) / 2) * bs + s.lofs % bs : Nat) : Int)) ∧
        (s.lofs < 2 ^ 63 →
          s.fileOffset = ((((s.lofs / bs) / 2) * bs + s.lofs % bs : Nat) : Int)) ∧
        (2 ^ 63 ≤ ((s.lofs / bs) / 2) * bs + s.lofs % bs → s.lofs < 2 ^ 64 →
          s.fileOffset = ((((s.lofs / bs) / 2) * bs + s.lofs % bs : Nat) : Int) - 2 ^ 64)) := by
  have key : ∀ s ∈ segs bs len 0 len offset, s.dev = (s.lofs / bs) % 2 ∧
      (((s.lofs / bs) / 2) * bs + s.lofs % bs < 2 ^ 63 →
        s.fileOffset = ((((s.lofs / bs) / 2) * bs + s.lofs % bs : Nat) : Int)) ∧
      (s.lofs < 2 ^ 63 →
        s.fileOffset = ((((s.lofs / bs) / 2) * bs + s.lofs % bs : Nat) : Int)) ∧
      (2 ^ 63 ≤ ((s.lofs / bs) / 2) * bs + s.lofs % bs → s.lofs < 2 ^ 64 →
        s.fileOffset = ((((s.lofs / bs) / 2) * bs + s.lofs % bs : Nat) : Int) - 2 ^ 64) := by
    intro s hs
    obtain ⟨h1, h2⟩ := segs_placed bs hbs len 0 len offset (le_refl _) s hs
    have hle := posOf_le bs s.lofs
    simp only [posOf] at h2 hle
    have low : ∀ v : Nat, v < 2 ^ 63 → off_t v = (v : Int) := by
      intro v hv
      have hm : v % U64 = v := Nat.mod_eq_of_lt (by unfold U64; omega)
      simp only [off_t, hm]
      rw [if_pos hv]
    refine ⟨h1, ?_, ?_, ?_⟩
    · intro hv
      simp only [Seg.fileOffset, h2]
      exact low _ hv
    · intro hv
      simp only [Seg.fileOffset, h2]
      exact low _ (by omega)
    · intro hv hl
      have hm : (s.lofs / bs / 2 * bs + s.lofs % bs) % U64 = s.lofs / bs / 2 * bs + s.lofs % bs :=
        Nat.mod_eq_of_lt (by unfold U64; omega)
      have hn : ¬ s.lofs / bs / 2 * bs + s.lofs % bs < 2 ^ 63 := by omega
      simp only [Seg.fileOffset, h2, off_t, hm, hn, if_false]
      simp [U64]
  exact ⟨⟨_, xmp_read_eq xfer bs devs mem len offset hbs, key⟩,
    ⟨_, xmp_write_eq xfer bs devs mem len offset hbs, key⟩⟩

theorem calls_placed_off_t_witness :
    ∃ r, xmp_read fullXfer 512 (fun _ _ => 0) (fun _ => 0) 600 256 = .ok r ∧
      ∀ s ∈ r.calls, s.dev = (s.lofs / 512) % 2 ∧
        (((s.lofs / 512) / 2) * 512 + s.lofs % 512 < 2 ^ 63 →
          s.fileOffset = ((((s.lofs / 512) / 2) * 512 + s.lofs % 512 : Nat) : Int)) := by
  obtain ⟨r, hr, h⟩ :=
    (calls_placed_off_t fullXfer 512 600 256 (fun _ _ => 0) (fun _ => 0) (by decide)).1
  exact ⟨r, hr, fun s hs => ⟨(h s hs).1, (h s hs).2.1⟩⟩

/-- C6 (aligned writes).  For a block size above zero, a block-aligned `offset` and a
request that ends inside the 64-bit offset space, every transfer being complete,
`xmp_write` returns, and for every `k` whose block-sized piece lies inside the buffer:
call number `k` writes the `block_size` bytes at buffer position `k * block_size` to
device `(offset / block_size + k) % 2` at file offset
`((offset / block_size + k) / 2) * block_size`, and on return that device holds the
piece there; a call for an even logical block goes to device 0. -/
theorem aligned_write_placement (bs len offset : Nat) (devs : Devs) (mem : Mem)
    (hbs : 0 < bs) (hal : offset % bs = 0) (hfit : offset + len < U64) :
    ∃ w, xmp_write fullXfer bs devs mem len offset = .ok w ∧
      (∀ k, (k + 1) * bs ≤ len →
        w.calls[k]? = some ⟨offset + k * bs, (offset / bs + k) % 2, k * bs, bs,
            ((offset / bs + k) / 2) * bs⟩ ∧
        ∀ j, j < bs →
          w.devs ((offset / bs + k) % 2) (((offset / bs + k) / 2) * bs + j) = mem (k * bs + j)) ∧
      (∀ s ∈ w.calls, (s.lofs / bs) % 2 = 0 → s.dev = 0) := by
  refine ⟨_, xmp_write_eq fullXfer bs devs mem len offset hbs, ?_, ?_⟩
  · intro k hk
    constructor
    · have := segs_getElem bs hbs len 0 len offset (le_refl _) hfit k hk
      simp only [Nat.zero_add] at this
      rw [this]
      simp [devOf, posOf, div_add_blocks bs offset k hbs, mod_add_blocks, hal]
    · intro j hj
      have e : (k + 1) * bs = k * bs + bs := by ring
      have hw := (write_effect bs hbs mem len 0 len offset (le_refl _) (Or.inl hfit) devs).1
        (k * bs + j) (by omega)
      have hd : (k * bs + j) / bs = k := by
        rw [Nat.add_comm, Nat.add_mul_div_right _ _ hbs, Nat.div_eq_of_lt hj, Nat.zero_add]
      have hm : (k * bs + j) % bs = j := by
        rw [Nat.add_comm, Nat.add_mul_mod_self_right, Nat.mod_eq_of_lt hj]
      rw [slot_eq bs offset _ hbs (by omega), hd, hm, hal] at hw
      simpa using hw
  · intro s hs h0
    rw [(segs_placed bs hbs len 0 len offset (le_refl _) s hs).1]
    exact h0

theorem aligned_write_placement_witness :
    ∃ w, xmp_write fullXfer 4096 (fun _ _ => 0) (fun i => Fin.ofNat i) 8192 0 = .ok w ∧
      (∀ j, j < 4096 → w.devs 0 j = (Fin.ofNat j : Byte)) ∧
      (∀ j, j < 4096 → w.devs 1 j = (Fin.ofNat (4096 + j) : Byte)) := by
  obtain ⟨w, hw, h, _⟩ := aligned_write_placement 4096 8192 0 (fun _ _ => 0)
    (fun i => Fin.ofNat i) (by decide) (by decide) (by decide)
  refine ⟨w, hw, ?_, ?_⟩
  · intro j hj
    simpa using (h 0 (by decide)).2 j hj
  · intro j hj
    simpa using (h 1 (by decide)).2 j hj

/-- C7 (sizing law), evaluated with an empty first device: for device sizes 0 and
1048576 and `block_size = 512`, `main` exports 1048576 bytes, while
`floor(min(0, 1048576) / 512) * 512` is 0. -/
theorem size_with_empty_first_device :
    main 512 (fun _ => 3) (fun i => if i = 0 then 0 else 1048576) = .serve 1048576 ∧
    min 0 1048576 / 512 * 512 = 0 := by
  decide

/-- C8, as the code behaves: a read and a write of one block in which the kernel
transfers nothing at all both return status 0. -/
theorem short_transfer_returns_success :
    (∃ r, xmp_read (fun _ => 0) 512 (fun _ _ => 0) (fun _ => 0) 512 0 = .ok r ∧
      r.calls = [⟨0, 0, 0, 512, 0⟩] ∧ moved (fun _ => 0) ⟨0, 0, 0, 512, 0⟩ < 512 ∧
      r.status = 0) ∧
    (∃ w, xmp_write (fun _ => 0) 512 (fun _ _ => 0) (fun _ => 0) 512 0 = .ok w ∧
      w.calls = [⟨0, 0, 0, 512, 0⟩] ∧ moved (fun _ => 0) ⟨0, 0, 0, 512, 0⟩ < 512 ∧
      w.status = 0) := by
  refine ⟨⟨_, xmp_read_eq _ 512 _ _ 512 0 (by decide), ?_, by decide, rfl⟩,
    ⟨_, xmp_write_eq _ 512 _ _ 512 0 (by decide), ?_, by decide, rfl⟩⟩
  · decide
  · decide

/-- C8 (amended).  For a block size above zero, whatever number of bytes the kernel
transfers in each positioned read or write, `xmp_read` and `xmp_write` return status 0. -/
theorem status_ignores_transfers (xfer : Seg → Nat) (bs len offset : Nat) (devs : Devs)
    (mem : Mem) (hbs : 0 < bs) :
    (∃ r, xmp_read xfer bs devs mem len offset = .ok r ∧ r.status = 0) ∧
    (∃ w, xmp_write xfer bs devs mem len offset = .ok w ∧ w.status = 0) :=
  ⟨⟨_, xmp_read_eq xfer bs devs mem len offset hbs, rfl⟩,
   ⟨_, xmp_write_eq xfer bs devs mem len offset hbs, rfl⟩⟩

theorem status_ignores_transfers_witness :
    (∃ r, xmp_read (fun c => c.count / 2) 512 (fun _ _ => 0) (fun _ => 0) 600 256 = .ok r ∧
      r.status = 0) ∧
    (∃ w, xmp_write (fun c => c.count / 2) 512 (fun _ _ => 0) (fun _ => 0) 600 256 = .ok w ∧
      w.status = 0) :=
  status_ignores_transfers (fun c => c.count / 2) 512 600 256 (fun _ _ => 0) (fun _ => 0)
    (by decide)

/-- C9 (locality), evaluated at `block_size = 4096`, `offset = 3584`, `length = 1024`
on zeroed devices with a buffer of ones: `xmp_write` issues one transfer to device 0
at file offsets 3584 to 4607; the byte of device 0 at file offset 4096 is changed although
it is the home of no address in the range 3584 to 4607, the home of the targeted
address 4096, device 1 at file offset 0, is left as it was, and a following `xmp_read`
of the block at `offset = 4096` finds 0 there, not the 1 written. -/
theorem unaligned_write_leaves_target :
    ∃ w, xmp_write fullXfer 4096 (fun _ _ => 0) (fun _ => 1) 1024 3584 = .ok w ∧
      w.calls = [⟨3584, 0, 0, 1024, 3584⟩] ∧
      w.devs 0 4096 = 1 ∧
      (∀ a, 3584 ≤ a → a < 3584 + 1024 → (devOf 4096 a, posOf 4096 a) ≠ (0, 4096)) ∧
      (devOf 4096 4096, posOf 4096 4096) = (1, 0) ∧
      w.devs 1 0 = 0 ∧
      ∃ r, xmp_read fullXfer 4096 w.devs (fun _ => 7) 4096 4096 = .ok r ∧ r.mem 0 = 0 := by
  refine ⟨_, xmp_write_eq _ 4096 _ _ 1024 3584 (by decide), by decide, by decide, ?_,
    by decide, by decide, _, xmp_read_eq _ 4096 _ _ 4096 4096 (by decide), by decide⟩
  intro a h1 h2 h
  have hp := (Prod.mk.inj h).2
  simp only [posOf] at hp
  omega

/-- C10 (flush tolerance).  When the descriptor of device `i` is -1 and the other
one is not, `xmp_flush` returns 0 and syncs exactly the other descriptor. -/
theorem flush_skips_absent (dev_fd : Nat → Int) (i : Nat) (hi : i < 2)
    (habsent : dev_fd i = -1) (hpresent : dev_fd (1 - i) ≠ -1) :
    (xmp_flush dev_fd).1 = 0 ∧ (xmp_flush dev_fd).2 = [dev_fd (1 - i)] ∧
      dev_fd i ∉ (xmp_flush dev_fd).2 := by
  have h : i = 0 ∨ i = 1 := by omega
  rcases h with h | h
  · subst h
    simp only [Nat.sub_zero] at hpresent
    simp [xmp_flush, List.range_succ, habsent, hpresent]
    intro hc
    exact hpresent hc.symm
  · subst h
    simp only [Nat.sub_self] at hpresent
    simp [xmp_flush, List.range_succ, habsent, hpresent]
    intro hc
    exact hpresent hc.symm

theorem flush_skips_absent_witness :
    (xmp_flush (fun i => if i = 0 then -1 else 4)).1 = 0 ∧
    (xmp_flush (fun i => if i = 0 then -1 else 4)).2 = [4] ∧
    (-1 : Int) ∉ (xmp_flush (fun i => if i = 0 then -1 else 4)).2 :=
  flush_skips_absent (fun i => if i = 0 then -1 else 4) 0 (by decide) (by decide) (by decide)

/-- C11 (block size zero), evaluated at the arguments `0 /dev/nbd0 a.img b.img` with
two devices of 1048576 bytes that open: `parse_opt` takes the block size 0 without a
word, and `main`, which checks it nowhere, opens and sizes both devices and reaches the
division `raid_device_size / block_size` by zero; whatever the devices, with
`block_size = 0` the run ends in the exit after a failed `open` or at that division,
never in an error raised for the block size. -/
theorem zero_block_size_unchecked :
    (∃ a, argp_parse (fun _ => (0, "")) ["0", "/dev/nbd0", "a.img", "b.img"] = .ok a ∧
      a.block_size = 0 ∧ a.device 0 = some "a.img" ∧ a.device 1 = some "b.img") ∧
    main 0 (fun _ => 3) (fun _ => 1048576) = .divByZero ∧
    (∀ (fd : Nat → Int) (size : Nat → Nat),
      main 0 fd size = .exit1 ∨ main 0 fd size = .divByZero) := by
  refine ⟨⟨_, rfl, by decide, rfl, rfl⟩, by decide, ?_⟩
  intro fd size
  cases h : opened_size fd size with
  | none =>
    simp only [opened_size] at h
    simp [main, h]
  | some raw =>
    simp only [opened_size] at h
    simp [main, h]

/-- C12 (whole blocks).  For a block size above zero and two devices that could be opened,
whatever their sizes, `main` hands the server a size that is a multiple of `block_size`
and not larger than the value of `raid_device_size` it was truncated from. -/
theorem exported_size_whole_blocks (bs : Nat) (fd : Nat → Int) (size : Nat → Nat)
    (hbs : 0 < bs) (hfd0 : 0 ≤ fd 0) (hfd1 : 0 ≤ fd 1) :
    ∃ raw, opened_size fd size = some raw ∧ main bs fd size = .serve (raw / bs * bs) ∧
      (raw / bs * bs) % bs = 0 ∧ raw / bs * bs ≤ raw :=
  ⟨_, opened_size_of_fds fd size hfd0 hfd1,
    main_of_opened bs fd size _ hbs (opened_size_of_fds fd size hfd0 hfd1),
    Nat.mul_mod_left _ _, Nat.div_mul_le_self _ _⟩

theorem exported_size_whole_blocks_witness :
    ∃ raw, opened_size (fun _ => 3) (fun i => if i = 0 then 5000 else 7000) = some raw ∧
      main 512 (fun _ => 3) (fun i => if i = 0 then 5000 else 7000) = .serve (raw / 512 * 512) ∧
      (raw / 512 * 512) % 512 = 0 ∧ raw / 512 * 512 ≤ raw :=
  exported_size_whole_blocks 512 (fun _ => 3) (fun i => if i = 0 then 5000 else 7000)
    (by decide) (by decide) (by decide)

/-- C13 (zero length).  For every `offset` and every `block_size`, zero included, and
whatever the kernel would transfer, `xmp_read` and `xmp_write` with `len = 0` make no
call, return 0, and leave the buffer, respectively the devices, as they were. -/
theorem zero_length_noop (xfer : Seg → Nat) (bs offset : Nat) (devs : Devs) (mem : Mem) :
    xmp_read xfer bs devs mem 0 offset = .ok ⟨0, mem, []⟩ ∧
    xmp_write xfer bs devs mem 0 offset = .ok ⟨0, devs, []⟩ :=
  ⟨rfl, rfl⟩

/-- C14 (totality).  For a block size above zero: `xmp_read` and `xmp_write` return after
at most `len` iterations, more fuel than `len` changes nothing, the calls made do not
depend on the kernel, the devices or the buffer, and an iteration that does not leave the
loop goes on with the length `len - block_size`, which is smaller than `len`. -/
theorem loops_terminate (xfer : Seg → Nat) (bs len offset : Nat) (devs : Devs) (mem : Mem)
    (hbs : 0 < bs) :
    (∃ r, xmp_read xfer bs devs mem len offset = .ok r ∧ r.calls.length ≤ len ∧
      ∀ xfer2 devs2 mem2, ∃ r2, xmp_read xfer2 bs devs2 mem2 len offset = .ok r2 ∧
        r2.calls = r.calls) ∧
    (∃ w, xmp_write xfer bs devs mem len offset = .ok w ∧ w.calls.length ≤ len ∧
      ∀ xfer2 devs2 mem2, ∃ w2, xmp_write xfer2 bs devs2 mem2 len offset = .ok w2 ∧
        w2.calls = w.calls) ∧
    (∀ fuel, len ≤ fuel →
      xmp_read_loop xfer bs devs fuel mem 0 len offset =
        xmp_read_loop xfer bs devs len mem 0 len offset ∧
      xmp_write_loop xfer bs mem fuel devs 0 len offset =
        xmp_write_loop xfer bs mem len devs 0 len offset) ∧
    (∀ fuel buf l o (m : Mem) (d : Devs), bs ≤ l →
      l - bs < l ∧
      xmp_read_loop xfer bs devs (fuel + 1) m buf l o =
        (xmp_read_loop xfer bs devs fuel (pread xfer devs m ⟨o, devOf bs o, buf, bs, posOf bs o⟩)
          (buf + bs) (l - bs) ((o + bs) % U64)).map
          (fun x => (x.1, (⟨o, devOf bs o, buf, bs, posOf bs o⟩ : Seg) :: x.2)) ∧
      xmp_write_loop xfer bs mem (fuel + 1) d buf l o =
        (xmp_write_loop xfer bs mem fuel (pwrite xfer mem d ⟨o, devOf bs o, buf, bs, posOf bs o⟩)
          (buf + bs) (l - bs) ((o + bs) % U64)).map
          (fun x => (x.1, (⟨o, devOf bs o, buf, bs, posOf bs o⟩ : Seg) :: x.2))) := by
  refine ⟨⟨_, xmp_read_eq xfer bs devs mem len offset hbs,
      segs_length bs hbs len 0 len offset (le_refl _),
      fun xfer2 devs2 mem2 => ⟨_, xmp_read_eq xfer2 bs devs2 mem2 len offset hbs, rfl⟩⟩,
    ⟨_, xmp_write_eq xfer bs devs mem len offset hbs,
      segs_length bs hbs len 0 len offset (le_refl _),
      fun xfer2 devs2 mem2 => ⟨_, xmp_write_eq xfer2 bs devs2 mem2 len offset hbs, rfl⟩⟩,
    ?_, ?_⟩
  · intro fuel hf
    rw [xmp_read_loop_eq xfer bs devs hbs fuel mem 0 len offset hf,
      xmp_read_loop_eq xfer bs devs hbs len mem 0 len offset (le_refl _),
      xmp_write_loop_eq xfer bs mem hbs fuel devs 0 len offset hf,
      xmp_write_loop_eq xfer bs mem hbs len devs 0 len offset (le_refl _),
      segs_fuel bs hbs fuel len 0 len offset hf (le_refl _)]
    exact ⟨rfl, rfl⟩
  · intro fuel buf l o m d hge
    have hl : l > 0 := by omega
    have hb : bs ≠ 0 := by omega
    have hn : ¬ l < bs := by omega
    refine ⟨by omega, ?_, ?_⟩
    · simp only [xmp_read_loop, hl, hb, hn, if_true, if_false, devOf, posOf]
      cases xmp_read_loop xfer bs devs fuel _ (buf + bs) (l - bs) ((o + bs) % U64) <;> rfl
    · simp only [xmp_write_loop, hl, hb, hn, if_true, if_false, devOf, posOf]
      cases xmp_write_loop xfer bs mem fuel _ (buf + bs) (l - bs) ((o + bs) % U64) <;> rfl

theorem loops_terminate_witness :
    (∃ r, xmp_read fullXfer 512 (fun _ _ => 0) (fun _ => 0) 600 256 = .ok r ∧
      r.calls.length ≤ 600 ∧
      ∀ xfer2 devs2 mem2, ∃ r2, xmp_read xfer2 512 devs2 mem2 600 256 = .ok r2 ∧
        r2.calls = r.calls) ∧
    (∃ w, xmp_write fullXfer 512 (fun _ _ => 0) (fun _ => 0) 600 256 = .ok w ∧
      w.calls.length ≤ 600 ∧
      ∀ xfer2 devs2 mem2, ∃ w2, xmp_write xfer2 512 devs2 mem2 600 256 = .ok w2 ∧
        w2.calls = w.calls) :=
  ⟨(loops_terminate fullXfer 512 600 256 (fun _ _ => 0) (fun _ => 0) (by decide)).1,
   (loops_terminate fullXfer 512 600 256 (fun _ _ => 0) (fun _ => 0) (by decide)).2.1⟩

/-- C15 (write like read).  For a block size above zero, whatever the kernel, the devices
and the buffers of the two operations, `xmp_write` makes exactly the calls `xmp_read`
makes for the same `len` and `offset`: same loop offset, device, buffer position, count
and file offset, in the same order. -/
theorem write_calls_eq_read_calls (xfer xfer2 : Seg → Nat) (bs len offset : Nat)
    (devs devs2 : Devs) (mem mem2 : Mem) (hbs : 0 < bs) :
    ∃ r w, xmp_read xfer bs devs mem len offset = .ok r ∧
      xmp_write xfer2 bs devs2 mem2 len offset = .ok w ∧ w.calls = r.calls :=
  ⟨_, _, xmp_read_eq xfer bs devs mem len offset hbs,
    xmp_write_eq xfer2 bs devs2 mem2 len offset hbs, rfl⟩

theorem write_calls_eq_read_calls_witness :
    ∃ r w, xmp_read fullXfer 512 (fun _ _ => 0) (fun _ => 0) 600 256 = .ok r ∧
      xmp_write (fun _ => 0) 512 (fun _ _ => 1) (fun _ => 2) 600 256 = .ok w ∧
      w.calls = r.calls :=
  write_calls_eq_read_calls fullXfer (fun _ => 0) 512 600 256 (fun _ _ => 0) (fun _ _ => 1)
    (fun _ => 0) (fun _ => 2) (by decide)

/-- C16 (in bounds).  For a block size above zero, two opened devices of which the first
is not empty and whose smaller size is a `uint64_t`, `main` exports
`min(size0, size1) / block_size * block_size`, and for every request with
`offset + len` at most that size every call of `xmp_read` and of `xmp_write` ends at a
file offset of at most `min(size0, size1)`. -/
theorem calls_in_bounds (xfer : Seg → Nat) (bs len offset : Nat) (devs : Devs) (mem : Mem)
    (fd : Nat → Int) (size : Nat → Nat) (hbs : 0 < bs) (hfd0 : 0 ≤ fd 0) (hfd1 : 0 ≤ fd 1)
    (h0 : 0 < size 0) (hsz : min (size 0) (size 1) < U64)
    (hreq : offset + len ≤ min (size 0) (size 1) / bs * bs) :
    main bs fd size = .serve (min (size 0) (size 1) / bs * bs) ∧
    (∃ r, xmp_read xfer bs devs mem len offset = .ok r ∧
      ∀ s ∈ r.calls, s.pofs + s.count ≤ min (size 0) (size 1)) ∧
    (∃ w, xmp_write xfer bs devs mem len offset = .ok w ∧
      ∀ s ∈ w.calls, s.pofs + s.count ≤ min (size 0) (size 1)) := by
  have hL : min (size 0) (size 1) / bs * bs ≤ min (size 0) (size 1) := Nat.div_mul_le_self _ _
  have hfit : offset + len < U64 := by omega
  have key : ∀ s ∈ segs bs len 0 len offset, s.pofs + s.count ≤ min (size 0) (size 1) := by
    intro s hs
    have h1 := (segs_placed bs hbs len 0 len offset (le_refl _) s hs).2
    have h2 := (segs_within bs hbs len 0 len offset (le_refl _) hfit s hs).2.1
    have h3 := posOf_le bs s.lofs
    omega
  exact ⟨main_size_of_pos bs fd size hbs hfd0 hfd1 h0,
    ⟨_, xmp_read_eq xfer bs devs mem len offset hbs, key⟩,
    ⟨_, xmp_write_eq xfer bs devs mem len offset hbs, key⟩⟩

theorem calls_in_bounds_witness :
    main 512 (fun _ => 3) (fun i => if i = 0 then 5000 else 7000) =
      .serve (min 5000 7000 / 512 * 512) ∧
    (∃ r, xmp_read fullXfer 512 (fun _ _ => 0) (fun _ => 0) 600 4008 = .ok r ∧
      ∀ s ∈ r.calls, s.pofs + s.count ≤ min 5000 7000) ∧
    (∃ w, xmp_write fullXfer 512 (fun _ _ => 0) (fun _ => 0) 600 4008 = .ok w ∧
      ∀ s ∈ w.calls, s.pofs + s.count ≤ min 5000 7000) :=
  calls_in_bounds fullXfer 512 600 4008 (fun _ _ => 0) (fun _ => 0) (fun _ => 3)
    (fun i => if i = 0 then 5000 else 7000) (by decide) (by decide) (by decide) (by decide)
    (by decide) (by decide)

/-- C17 (placement is injective).  For a block size above zero, the logical offset `a` is
recovered from its device `d` and file offset `p` as
`(2 * (p / block_size) + d) * block_size + p % block_size`, so two logical offsets with
the same device and file offset are equal; and this is the placement of the loops: the
loop offset of every call of `xmp_read` and `xmp_write` is recovered so from its device
and file offset. -/
theorem placement_injective (bs : Nat) (hbs : 0 < bs) :
    (∀ a, (2 * (posOf bs a / bs) + devOf bs a) * bs + posOf bs a % bs = a) ∧
    (∀ a b, (devOf bs a, posOf bs a) = (devOf bs b, posOf bs b) → a = b) ∧
    (∀ (xfer : Seg → Nat) (devs : Devs) (mem : Mem) (len offset : Nat),
      (∃ r, xmp_read xfer bs devs mem len offset = .ok r ∧
        ∀ s ∈ r.calls, (2 * (s.pofs / bs) + s.dev) * bs + s.pofs % bs = s.lofs) ∧
      (∃ w, xmp_write xfer bs devs mem len offset = .ok w ∧
        ∀ s ∈ w.calls, (2 * (s.pofs / bs) + s.dev) * bs + s.pofs % bs = s.lofs)) := by
  have key : ∀ len offset, ∀ s ∈ segs bs len 0 len offset,
      (2 * (s.pofs / bs) + s.dev) * bs + s.pofs % bs = s.lofs := by
    intro len offset s hs
    obtain ⟨h1, h2⟩ := segs_placed bs hbs len 0 len offset (le_refl _) s hs
    rw [h1, h2]
    exact home_recover bs s.lofs hbs
  refine ⟨fun a => home_recover bs a hbs, ?_, ?_⟩
  · intro a b h
    have hd := (Prod.mk.inj h).1
    have hp := (Prod.mk.inj h).2
    rw [← home_recover bs a hbs, ← home_recover bs b hbs, hd, hp]
  · intro xfer devs mem len offset
    exact ⟨⟨_, xmp_read_eq xfer bs devs mem len offset hbs, key len offset⟩,
      ⟨_, xmp_write_eq xfer bs devs mem len offset hbs, key len offset⟩⟩

theorem placement_injective_witness :
    (∀ a, (2 * (posOf 512 a / 512) + devOf 512 a) * 512 + posOf 512 a % 512 = a) ∧
    (∀ a b, (devOf 512 a, posOf 512 a) = (devOf 512 b, posOf 512 b) → a = b) :=
  ⟨(placement_injective 512 (by decide)).1, (placement_injective 512 (by decide)).2.1⟩

/-- C18 (not enough arguments), evaluated with three positional arguments: at
`ARGP_KEY_END` with `arg_num = 3` `parse_opt` returns 0, so parsing the arguments
`512 /dev/nbd0 a.img` succeeds with `device[1]` never set; with two arguments the check
does stop the program. -/
theorem three_arguments_accepted :
    (∃ a, argp_parse (fun _ => (512, "")) ["512", "/dev/nbd0", "a.img"] = .ok a ∧
      a.block_size = 512 ∧ a.raid_device = some "/dev/nbd0" ∧
      a.device 0 = some "a.img" ∧ a.device 1 = none) ∧
    (∃ a, parse_opt (fun _ => (512, "")) .ARGP_KEY_END "" 3 Arguments.init = .ok a) ∧
    argp_parse (fun _ => (512, "")) ["512", "/dev/nbd0"] = .exitNotEnough := by
  refine ⟨⟨_, rfl, ?_, rfl, rfl, rfl⟩, ⟨_, rfl⟩, rfl⟩
  decide

end Raid0
